import Mathlib

/-!
Verification development for the resource-bounded context and query management
subsystem of the II-Agent chat backend: the sliding-window context selector
(`select`), the token estimator, the LRU response cache, the query router and
the dataset sampler.  The backend service files (`services/context_window.py`,
`services/ai_service.py`, `services/csv_service.py`) are not part of the
checked-in sources; the definitions below are modelled from the specification,
kept consistent with the `apply_sliding_window` pseudocode published in
`src/MD/IMPROVEMENTS_SUMMARY.md` (lines 804-829) and the pattern lists in
`src/README.md` (lines 173-180).
-/

namespace IIAgent

/-! ## Data model (spec section 3) -/

/-- Message role: one of `user`, `assistant`, `system`. -/
inductive Role
  | user
  | assistant
  | system
  deriving DecidableEq, Repr

/-- A content part of a message: text, an image reference, a tabular preview,
or an unknown kind (which the estimator treats as free). -/
inductive ContentPart
  | text (s : String)
  | image (ref : String)
  | tabular (preview : String)
  | other (kind : String)
  deriving DecidableEq, Repr

/-- An ordered unit of conversation.  The stable identifier is modelled as a
natural number, the creation timestamp as a natural number of ticks. -/
structure Message where
  id : Nat
  role : Role
  parts : List ContentPart
  createdAt : Nat
  deriving DecidableEq, Repr

/-! ## TokenEstimator (spec section 4.1)

Modelled from the spec: `services` token estimation code is absent from the
checked-in sources.  Text costs 1.3 tokens per word rounded up, an image costs
a flat 765, a tabular part is costed from its serialized preview like text,
unknown kinds cost 0, and every message carries a fixed overhead of 4. -/

/-- Number of whitespace-separated words of a string. -/
def wordCount (s : String) : Nat :=
  ((s.split (fun c => c == ' ')).filter (fun w => !(w == ""))).length

/-- Ceiling of 1.3 tokens per word. -/
def textCost (s : String) : Nat := (13 * wordCount s + 9) / 10

/-- Cost of a single content part. -/
def partCost : ContentPart → Nat
  | .text s => textCost s
  | .image _ => 765
  | .tabular p => textCost p
  | .other _ => 0

/-- Estimated token cost of one message: per-message overhead 4 plus parts. -/
def estimate (m : Message) : Nat := 4 + (m.parts.map partCost).sum

/-- Estimated token cost of a list of messages. -/
def sumTokens (l : List Message) : Nat := (l.map estimate).sum

/-! ## ContextWindowManager (spec section 4.2)

Modelled from the spec: `services/context_window.py` is absent from the
checked-in sources.  The branch order follows the `apply_sliding_window`
pseudocode of `src/MD/IMPROVEMENTS_SUMMARY.md`: the `len(history) <=
maxMessages` fast path is tested first; the spec's edge cases (`maxMessages <=
0` gives an empty truncated window, `preserveFirst >= maxMessages` is clamped
to `maxMessages - 1` with floor 0) are applied on the remaining path. -/

/-- The derived submission view: selected messages plus metadata. -/
structure ContextWindow where
  messages : List Message
  totalMessages : Nat
  kept : Nat
  removed : Nat
  estimatedTokens : Nat
  truncated : Bool
  deriving DecidableEq, Repr

/-- The trailing `n` elements of a list. -/
def lastN (n : Nat) (l : List Message) : List Message := l.drop (l.length - n)

/-- The effective preserve count: `preserveFirst >= maxMessages` is a
configuration error clamped to `maxMessages - 1` (floor 0, automatic on Nat);
a negative `preserveFirst` is floored to 0. -/
def clampP (maxMessages preserveFirst : Int) : Nat :=
  if maxMessages ≤ preserveFirst then maxMessages.toNat - 1 else preserveFirst.toNat

/-- Steps 2-4 of the algorithm: the preserved head followed by the trailing
`maxMessages - preserveFirst` messages of the candidate pool. -/
def buildWindow (history : List Message) (maxM p : Nat) : List Message :=
  history.take p ++ lastN (maxM - p) (history.drop p)

/-- Step 6 of the algorithm: while the running token total exceeds the budget
and more than `preserveFirst + 2` messages remain, remove the message at the
midpoint of the non-preserved portion and subtract its cost.  Structured with
explicit fuel (the caller passes the window length, which bounds the number of
removals). -/
def shrink (p : Nat) (maxTokens : Int) : Nat → List Message → Nat → List Message × Nat
  | 0, w, t => (w, t)
  | fuel + 1, w, t =>
    if maxTokens < (t : Int) ∧ p + 2 < w.length then
      match w[p + (w.length - p) / 2]? with
      | some m => shrink p maxTokens fuel (w.eraseIdx (p + (w.length - p) / 2)) (t - estimate m)
      | none => (w, t)
    else (w, t)

/-- `select(history, maxMessages, preserveFirst, maxTokens)`: the sliding
window context selection (spec section 4.2, steps 1-7 plus edge cases). -/
def select (history : List Message) (maxMessages preserveFirst maxTokens : Int) :
    ContextWindow :=
  if (history.length : Int) ≤ maxMessages then
    ⟨history, history.length, history.length, 0, sumTokens history, false⟩
  else if maxMessages ≤ 0 then
    ⟨[], history.length, 0, history.length, 0, true⟩
  else
    let p := clampP maxMessages preserveFirst
    let window := buildWindow history maxMessages.toNat p
    let res := shrink p maxTokens window.length window (sumTokens window)
    ⟨res.1, history.length, res.1.length, history.length - res.1.length, res.2,
      decide (0 < history.length - res.1.length)⟩

/-! ## Helper lemmas about `shrink` and the window construction -/

theorem shrink_sublist (p : Nat) (maxT : Int) :
    ∀ fuel w t, ((shrink p maxT fuel w t).1).Sublist w := by
  intro fuel
  induction fuel with
  | zero => intro w t; exact List.Sublist.refl w
  | succ n ih =>
    intro w t
    rw [shrink]
    split
    · split
      · exact (ih _ _).trans (List.eraseIdx_sublist _ _)
      · exact List.Sublist.refl w
    · exact List.Sublist.refl w

theorem shrink_length_le (p : Nat) (maxT : Int) (fuel : Nat) (w : List Message) (t : Nat) :
    ((shrink p maxT fuel w t).1).length ≤ w.length :=
  (shrink_sublist p maxT fuel w t).length_le

theorem take_eraseIdx_of_le {α : Type} (q : Nat) :
    ∀ (l : List α) (i : Nat), q ≤ i → (l.eraseIdx i).take q = l.take q := by
  intro l i hqi
  rw [List.eraseIdx_eq_take_drop_succ, List.take_append_eq_append_take, List.take_take,
    Nat.min_eq_left hqi]
  have : q - (List.take i l).length = 0 ∨ l.length ≤ i := by
    simp only [List.length_take]
    omega
  rcases this with h | h
  · rw [h]
    simp
  · rw [List.drop_eq_nil_of_le (by omega)]
    simp

theorem shrink_take (p : Nat) (maxT : Int) :
    ∀ fuel w t, ((shrink p maxT fuel w t).1).take p = w.take p := by
  intro fuel
  induction fuel with
  | zero => intro w t; rfl
  | succ n ih =>
    intro w t
    rw [shrink]
    split
    · split
      · rw [ih, take_eraseIdx_of_le p _ _ (Nat.le_add_right p _)]
      · rfl
    · rfl

theorem shrink_eq_of_le (p : Nat) (maxT : Int) (fuel : Nat) (w : List Message) (t : Nat)
    (h : (t : Int) ≤ maxT) : shrink p maxT fuel w t = (w, t) := by
  cases fuel with
  | zero => rfl
  | succ n =>
    rw [shrink, if_neg]
    intro hc
    exact absurd hc.1 (by omega)

theorem select_eq_fast (history : List Message) (maxMessages preserveFirst maxTokens : Int)
    (h : (history.length : Int) ≤ maxMessages) :
    select history maxMessages preserveFirst maxTokens =
      ⟨history, history.length, history.length, 0, sumTokens history, false⟩ := by
  rw [select, if_pos h]

theorem select_eq_guard (history : List Message) (maxMessages preserveFirst maxTokens : Int)
    (h1 : ¬ (history.length : Int) ≤ maxMessages) (h2 : maxMessages ≤ 0) :
    select history maxMessages preserveFirst maxTokens =
      ⟨[], history.length, 0, history.length, 0, true⟩ := by
  rw [select, if_neg h1, if_pos h2]

theorem select_eq_main (history : List Message) (maxMessages preserveFirst maxTokens : Int)
    (h1 : ¬ (history.length : Int) ≤ maxMessages) (h2 : ¬ maxMessages ≤ 0) :
    select history maxMessages preserveFirst maxTokens =
      (fun res =>
        (⟨res.1, history.length, res.1.length, history.length - res.1.length, res.2,
          decide (0 < history.length - res.1.length)⟩ : ContextWindow))
        (shrink (clampP maxMessages preserveFirst) maxTokens
          (buildWindow history maxMessages.toNat (clampP maxMessages preserveFirst)).length
          (buildWindow history maxMessages.toNat (clampP maxMessages preserveFirst))
          (sumTokens (buildWindow history maxMessages.toNat
            (clampP maxMessages preserveFirst)))) := by
  rw [select, if_neg h1, if_neg h2]

theorem clampP_lt (maxMessages preserveFirst : Int) (h : ¬ maxMessages ≤ 0) :
    clampP maxMessages preserveFirst < maxMessages.toNat := by
  rw [clampP]
  split
  · omega
  · omega

theorem buildWindow_length (history : List Message) (maxM p : Nat)
    (hp : p < maxM) (hlen : maxM < history.length) :
    (buildWindow history maxM p).length = maxM := by
  rw [buildWindow, lastN]
  simp only [List.length_append, List.length_take, List.length_drop]
  omega

theorem buildWindow_sublist (history : List Message) (maxM p : Nat) :
    (buildWindow history maxM p).Sublist history := by
  rw [buildWindow, lastN]
  conv_rhs => rw [← List.take_append_drop p history]
  exact (List.Sublist.refl _).append (List.drop_sublist _ _)

theorem buildWindow_take (history : List Message) (maxM p : Nat)
    (hp : p ≤ history.length) :
    (buildWindow history maxM p).take p = history.take p := by
  rw [buildWindow, List.take_append_eq_append_take, List.take_take]
  simp [List.length_take, Nat.min_eq_left hp]

theorem select_messages_main (history : List Message)
    (maxMessages preserveFirst maxTokens : Int)
    (h1 : ¬ (history.length : Int) ≤ maxMessages) (h2 : ¬ maxMessages ≤ 0) :
    (select history maxMessages preserveFirst maxTokens).messages =
      (shrink (clampP maxMessages preserveFirst) maxTokens
        (buildWindow history maxMessages.toNat (clampP maxMessages preserveFirst)).length
        (buildWindow history maxMessages.toNat (clampP maxMessages preserveFirst))
        (sumTokens (buildWindow history maxMessages.toNat
          (clampP maxMessages preserveFirst)))).1 := by
  rw [select_eq_main _ _ _ _ h1 h2]

theorem select_truncated_main (history : List Message)
    (maxMessages preserveFirst maxTokens : Int)
    (h1 : ¬ (history.length : Int) ≤ maxMessages) (h2 : ¬ maxMessages ≤ 0) :
    (select history maxMessages preserveFirst maxTokens).truncated =
      decide (0 < history.length -
        (select history maxMessages preserveFirst maxTokens).messages.length) := by
  rw [select_eq_main _ _ _ _ h1 h2]

/-! ## Concrete example histories used by counterexamples and witnesses -/

/-- A content-free user message with the given identifier. -/
def mkMsg (i : Nat) : Message := ⟨i, Role.user, [], 0⟩

/-- A 25-message history (scenario A's shape). -/
def exH25 : List Message := (List.range 25).map mkMsg

/-- A 3-message history. -/
def exH3 : List Message := [mkMsg 0, mkMsg 1, mkMsg 2]

/-- A 2-message history. -/
def exH2 : List Message := [mkMsg 0, mkMsg 1]

/-! ## Claim theorems for the context window manager -/

/-- C1: for every history and configuration, if `len(history) <= maxMessages`
then `select` returns the full history in order with nothing removed and
`truncated = false`, regardless of the token budget. -/
theorem select_full_history_when_within_limit (history : List Message)
    (maxMessages preserveFirst maxTokens : Int)
    (h : (history.length : Int) ≤ maxMessages) :
    (select history maxMessages preserveFirst maxTokens).messages = history ∧
    (select history maxMessages preserveFirst maxTokens).truncated = false ∧
    (select history maxMessages preserveFirst maxTokens).removed = 0 := by
  rw [select_eq_fast history maxMessages preserveFirst maxTokens h]
  exact ⟨rfl, rfl, rfl⟩

/-- Witness for C1 at a concrete one-message history with `maxMessages = 5`. -/
theorem select_full_history_when_within_limit_witness :
    (select [mkMsg 0] 5 0 0).messages = [mkMsg 0] ∧
    (select [mkMsg 0] 5 0 0).truncated = false ∧
    (select [mkMsg 0] 5 0 0).removed = 0 :=
  select_full_history_when_within_limit [mkMsg 0] 5 0 0 (by decide)

/-- C5 counterexample: on an empty history with `maxMessages = 0` the empty
window is reported with `truncated = false`, not `true` as the claim states
for every `maxMessages <= 0`. -/
theorem select_empty_history_zero_budget_not_truncated :
    ((0 : Int) ≤ 0) ∧ (select ([] : List Message) 0 0 0).truncated = false := by
  exact ⟨le_refl 0, rfl⟩

/-- C5 (amended): `select` never fails; `preserveFirst >= maxMessages` behaves
exactly as if `preserveFirst` were clamped to `max (maxMessages - 1) 0`; and
`maxMessages <= 0` returns an empty window, reported `truncated = true`
whenever the history is nonempty (an empty history is returned untruncated by
the fast path). -/
theorem select_config_errors_corrected_locally (history : List Message)
    (maxMessages preserveFirst maxTokens : Int) :
    (maxMessages ≤ preserveFirst →
      select history maxMessages preserveFirst maxTokens =
        select history maxMessages (max (maxMessages - 1) 0) maxTokens) ∧
    (maxMessages ≤ 0 →
      (select history maxMessages preserveFirst maxTokens).messages = [] ∧
      (history ≠ [] →
        (select history maxMessages preserveFirst maxTokens).truncated = true)) := by
  constructor
  · intro hclamp
    by_cases hfast : (history.length : Int) ≤ maxMessages
    · rw [select_eq_fast _ _ _ _ hfast, select_eq_fast _ _ _ _ hfast]
    · by_cases hg : maxMessages ≤ 0
      · rw [select_eq_guard _ _ _ _ hfast hg, select_eq_guard _ _ _ _ hfast hg]
      · rw [select_eq_main _ _ _ _ hfast hg, select_eq_main _ _ _ _ hfast hg]
        have hp : clampP maxMessages preserveFirst =
            clampP maxMessages (max (maxMessages - 1) 0) := by
          rw [clampP, clampP, if_pos hclamp, if_neg (by omega)]
          omega
        rw [hp]
  · intro hg
    by_cases hfast : (history.length : Int) ≤ maxMessages
    · have hnil : history = [] := by
        have : history.length = 0 := by omega
        exact List.length_eq_zero.mp this
      subst hnil
      rw [select_eq_fast _ _ _ _ hfast]
      exact ⟨rfl, fun hne => absurd rfl hne⟩
    · rw [select_eq_guard _ _ _ _ hfast hg]
      exact ⟨rfl, fun _ => rfl⟩

/-- Witness for the amended C5: clamping at `maxMessages = 2, preserveFirst =
5` and the empty truncated window at `maxMessages = 0` on a nonempty history. -/
theorem select_config_errors_corrected_locally_witness :
    (select exH3 2 5 1000 = select exH3 2 (max (2 - 1) 0) 1000) ∧
    (select exH3 0 3 0).messages = [] ∧
    (select exH3 0 3 0).truncated = true :=
  ⟨(select_config_errors_corrected_locally exH3 2 5 1000).1 (by decide),
   ((select_config_errors_corrected_locally exH3 0 3 0).2 (by decide)).1,
   ((select_config_errors_corrected_locally exH3 0 3 0).2 (by decide)).2 (by decide)⟩

/-- C2 counterexample: with `preserveFirst = 2 >= maxMessages = 2` on a
3-message history, the second message is dropped even though the history is
longer than `preserveFirst`, so the first `preserveFirst` messages are not all
present. -/
theorem select_preservation_fails_when_clamped :
    ((2 : Int) < (exH3.length : Int)) ∧
    mkMsg 1 ∈ exH3.take (2 : Int).toNat ∧
    mkMsg 1 ∉ (select exH3 2 2 1000).messages := by
  decide

/-- C2 (amended): the output of `select` is always a subsequence of the input
in original order; and whenever the configuration is valid (`0 <=
preserveFirst < maxMessages`), every one of the first `preserveFirst`
messages of the input is present in the output. -/
theorem select_subsequence_and_preserved (history : List Message)
    (maxMessages preserveFirst maxTokens : Int) :
    ((select history maxMessages preserveFirst maxTokens).messages).Sublist history ∧
    (0 ≤ preserveFirst → preserveFirst < maxMessages →
      ∀ m ∈ history.take preserveFirst.toNat,
        m ∈ (select history maxMessages preserveFirst maxTokens).messages) := by
  by_cases hfast : (history.length : Int) ≤ maxMessages
  · rw [select_eq_fast _ _ _ _ hfast]
    exact ⟨List.Sublist.refl _, fun _ _ m hm => List.take_subset _ _ hm⟩
  · by_cases hg : maxMessages ≤ 0
    · rw [select_eq_guard _ _ _ _ hfast hg]
      exact ⟨List.nil_sublist _, fun h0 hlt => absurd (lt_of_le_of_lt h0 hlt) (by omega)⟩
    · constructor
      · rw [select_messages_main _ _ _ _ hfast hg]
        exact (shrink_sublist _ _ _ _ _).trans (buildWindow_sublist _ _ _)
      · intro h0 hlt m hm
        rw [select_messages_main _ _ _ _ hfast hg]
        have hc : clampP maxMessages preserveFirst = preserveFirst.toNat := by
          rw [clampP, if_neg (by omega)]
        have hple : preserveFirst.toNat ≤ history.length := by omega
        have ht : ((shrink (clampP maxMessages preserveFirst) maxTokens
            (buildWindow history maxMessages.toNat (clampP maxMessages preserveFirst)).length
            (buildWindow history maxMessages.toNat (clampP maxMessages preserveFirst))
            (sumTokens (buildWindow history maxMessages.toNat
              (clampP maxMessages preserveFirst)))).1).take preserveFirst.toNat =
            history.take preserveFirst.toNat := by
          rw [hc] at *
          rw [shrink_take, buildWindow_take _ _ _ hple]
        have hmem : m ∈ ((shrink (clampP maxMessages preserveFirst) maxTokens
            (buildWindow history maxMessages.toNat (clampP maxMessages preserveFirst)).length
            (buildWindow history maxMessages.toNat (clampP maxMessages preserveFirst))
            (sumTokens (buildWindow history maxMessages.toNat
              (clampP maxMessages preserveFirst)))).1).take preserveFirst.toNat := by
          rw [ht]; exact hm
        exact List.take_subset _ _ hmem

/-- Witness for the amended C2 at a concrete 3-message history with valid
configuration `preserveFirst = 1 < maxMessages = 2`. -/
theorem select_subsequence_and_preserved_witness :
    ((select exH3 2 1 1000).messages).Sublist exH3 ∧
    ∀ m ∈ exH3.take (1 : Int).toNat, m ∈ (select exH3 2 1 1000).messages :=
  ⟨(select_subsequence_and_preserved exH3 2 1 1000).1,
   (select_subsequence_and_preserved exH3 2 1 1000).2 (by decide) (by decide)⟩

/-- C3 counterexample: re-running `select` on its own output is not the
identity on full `ContextWindow` values — after a truncating run the second
run reports `totalMessages`, `removed` and `truncated` relative to its own
(already truncated) input. -/
theorem select_rerun_changes_metadata :
    select ((select exH3 2 0 1000).messages) 2 0 1000 ≠ select exH3 2 0 1000 := by
  decide

/-- C3 (amended): `select` is idempotent on the selected message sequence:
re-running it on its own output returns exactly the same message list (the
window metadata, which is relative to the input actually given, may differ). -/
theorem select_idempotent_on_messages (history : List Message)
    (maxMessages preserveFirst maxTokens : Int) :
    (select ((select history maxMessages preserveFirst maxTokens).messages)
        maxMessages preserveFirst maxTokens).messages =
      (select history maxMessages preserveFirst maxTokens).messages := by
  by_cases hfast : (history.length : Int) ≤ maxMessages
  · rw [select_eq_fast _ _ _ _ hfast]
    rw [select_eq_fast _ _ _ _ hfast]
  · by_cases hg : maxMessages ≤ 0
    · rw [select_eq_guard _ _ _ _ hfast hg]
      by_cases hz : ((List.length ([] : List Message) : Int) ≤ maxMessages)
      · rw [select_eq_fast _ _ _ _ hz]
      · rw [select_eq_guard _ _ _ _ hz hg]
    · rw [select_messages_main _ _ _ _ hfast hg]
      have hwl : (buildWindow history maxMessages.toNat
          (clampP maxMessages preserveFirst)).length = maxMessages.toNat :=
        buildWindow_length _ _ _ (clampP_lt _ _ hg) (by omega)
      have hwle : ((shrink (clampP maxMessages preserveFirst) maxTokens
          (buildWindow history maxMessages.toNat (clampP maxMessages preserveFirst)).length
          (buildWindow history maxMessages.toNat (clampP maxMessages preserveFirst))
          (sumTokens (buildWindow history maxMessages.toNat
            (clampP maxMessages preserveFirst)))).1).length ≤ maxMessages.toNat :=
        le_trans (shrink_length_le _ _ _ _ _) (le_of_eq hwl)
      have hfast2 : (((shrink (clampP maxMessages preserveFirst) maxTokens
          (buildWindow history maxMessages.toNat (clampP maxMessages preserveFirst)).length
          (buildWindow history maxMessages.toNat (clampP maxMessages preserveFirst))
          (sumTokens (buildWindow history maxMessages.toNat
            (clampP maxMessages preserveFirst)))).1).length : Int) ≤ maxMessages := by
        omega
      rw [select_eq_fast _ _ _ _ hfast2]

/-- C4 counterexample: on the concrete 25-message history with `maxMessages =
20`, `preserveFirst = 2` and token budget 0 (exceeded by the window), the
output has 4 messages, not exactly 20 as the claim states. -/
theorem select_scenarioA_fails_when_budget_exceeded :
    ((0 : Int) < (sumTokens (exH25.take 2 ++ exH25.drop 7) : Int)) ∧
    (select exH25 20 2 0).messages.length ≠ 20 := by
  decide

/-- C4 (amended): for every 25-message history with `maxMessages = 20`,
`preserveFirst = 2` and a token budget not exceeded by the selected
20-message window, the output is exactly the first 2 messages followed by the
last 18 (so messages 1-2 are present and messages 3-7 spanning the middle are
omitted), has exactly 20 messages, and reports `truncated = true`.  When the
budget is exceeded the removal loop deletes further middle messages, so the
output is strictly smaller (see the counterexample). -/
theorem select_scenarioA_with_adequate_budget (history : List Message) (maxTokens : Int)
    (hlen : history.length = 25)
    (hbudget : (sumTokens (history.take 2 ++ history.drop 7) : Int) ≤ maxTokens) :
    (select history 20 2 maxTokens).messages = history.take 2 ++ history.drop 7 ∧
    (select history 20 2 maxTokens).messages.length = 20 ∧
    (select history 20 2 maxTokens).truncated = true := by
  have hfast : ¬ ((history.length : Int) ≤ 20) := by rw [hlen]; omega
  have hg : ¬ ((20 : Int) ≤ 0) := by omega
  have hbw : buildWindow history (20 : Int).toNat (clampP 20 2) =
      history.take 2 ++ history.drop 7 := by
    rw [show clampP 20 2 = 2 from rfl, show ((20 : Int).toNat) = 20 from rfl,
      buildWindow, lastN, List.length_drop, hlen]
    norm_num
  have hmsg : (select history 20 2 maxTokens).messages =
      history.take 2 ++ history.drop 7 := by
    rw [select_messages_main _ _ _ _ hfast hg, hbw, shrink_eq_of_le _ _ _ _ _ hbudget]
  have hmlen : (select history 20 2 maxTokens).messages.length = 20 := by
    rw [hmsg]
    simp only [List.length_append, List.length_take, List.length_drop, hlen]
    omega
  refine ⟨hmsg, hmlen, ?_⟩
  rw [select_truncated_main _ _ _ _ hfast hg, hmlen, hlen]
  decide

/-- Witness for the amended C4 at the concrete 25-message history with an
ample budget of 100000 tokens. -/
theorem select_scenarioA_with_adequate_budget_witness :
    (select exH25 20 2 100000).messages = exH25.take 2 ++ exH25.drop 7 ∧
    (select exH25 20 2 100000).messages.length = 20 ∧
    (select exH25 20 2 100000).truncated = true :=
  select_scenarioA_with_adequate_budget exH25 100000 (by decide) (by decide)

/-- C6: the token budget is not a postcondition of `select`.  On a 2-message
history within the message limit the fast path skips the token check and the
returned window's estimate (8) exceeds the budget 0 untruncated; on a
25-message history the removal loop stops at `preserveFirst + 2 = 4` messages
with the estimate (16) still above the budget 0. -/
theorem select_token_budget_not_postcondition :
    (exH2.length ≤ (20 : Int).toNat ∧
      (0 : Int) < ((select exH2 20 2 0).estimatedTokens : Int) ∧
      (select exH2 20 2 0).truncated = false) ∧
    ((20 : Int).toNat < exH25.length ∧
      (0 : Int) < ((select exH25 20 2 0).estimatedTokens : Int) ∧
      (select exH25 20 2 0).messages.length = 2 + 2) := by
  refine ⟨⟨by decide, by decide, by decide⟩, ⟨by decide, by decide, by decide⟩⟩

/-! ## ResponseCache (spec section 4.3)

Modelled from the spec: the response cache of `services/ai_service.py` is
absent from the checked-in sources (`src/MD/IMPROVEMENTS_SUMMARY.md` lines
148-164 document it as an in-memory LRU cache of at most 1000 responses).
The recency order is the entry list itself, most recently accessed first; a
read moves the entry to the front (a read counts as a touch), and an
insertion beyond capacity evicts the last entry, i.e. the least recently
accessed one. -/

/-- A bounded cache with least-recently-used eviction.  `entries` is kept in
recency order, most recently accessed first. -/
structure LRUCache (K V : Type) where
  entries : List (K × V)
  capacity : Nat

/-- Remove every binding of key `k`. -/
def eraseKey {K V : Type} [DecidableEq K] (k : K) : List (K × V) → List (K × V)
  | [] => []
  | (q, v) :: rest => if q = k then eraseKey k rest else (q, v) :: eraseKey k rest

/-- The value bound to `k`, if any. -/
def findVal {K V : Type} [DecidableEq K] (k : K) : List (K × V) → Option V
  | [] => none
  | (q, v) :: rest => if q = k then some v else findVal k rest

/-- `get(k)`: a hit returns the value and moves the entry to the front of the
recency order (a read access counts as a touch); a miss is a normal result. -/
def cacheGet {K V : Type} [DecidableEq K] (c : LRUCache K V) (k : K) :
    Option V × LRUCache K V :=
  match findVal k c.entries with
  | none => (none, c)
  | some v => (some v, ⟨(k, v) :: eraseKey k c.entries, c.capacity⟩)

/-- `put(k, v)`: bind `k` at the front of the recency order; if the cache now
exceeds its capacity, evict the least recently accessed entry (the last). -/
def cachePut {K V : Type} [DecidableEq K] (c : LRUCache K V) (k : K) (v : V) :
    LRUCache K V :=
  let e := (k, v) :: eraseKey k c.entries
  ⟨if c.capacity < e.length then e.dropLast else e, c.capacity⟩

/-- Insert a list of bindings in order. -/
def putAll {K V : Type} [DecidableEq K] (c : LRUCache K V) :
    List (K × V) → LRUCache K V
  | [] => c
  | (k, v) :: rest => putAll (cachePut c k v) rest

/-- The empty cache of a given capacity. -/
def emptyCache (K V : Type) (cap : Nat) : LRUCache K V := ⟨[], cap⟩

theorem cacheGet_fst {K V : Type} [DecidableEq K] (c : LRUCache K V) (k : K) :
    (cacheGet c k).1 = findVal k c.entries := by
  rw [cacheGet]
  cases findVal k c.entries <;> rfl

theorem findVal_eq_none_iff {K V : Type} [DecidableEq K] (k : K) :
    ∀ (l : List (K × V)), findVal k l = none ↔ k ∉ l.map Prod.fst := by
  intro l
  induction l with
  | nil => simp [findVal]
  | cons p rest ih =>
    obtain ⟨q, v⟩ := p
    rw [findVal]
    by_cases hq : q = k
    · subst hq
      simp
    · rw [if_neg hq, ih]
      constructor
      · intro h
        simp only [List.map_cons, List.mem_cons]
        push_neg
        exact ⟨fun h2 => hq h2.symm, h⟩
      · intro h
        simp only [List.map_cons, List.mem_cons] at h
        push_neg at h
        exact h.2

theorem eraseKey_of_not_mem {K V : Type} [DecidableEq K] (k : K) :
    ∀ (l : List (K × V)), k ∉ l.map Prod.fst → eraseKey k l = l := by
  intro l
  induction l with
  | nil => intro _; rfl
  | cons p rest ih =>
    obtain ⟨q, v⟩ := p
    intro hk
    simp only [List.map_cons, List.mem_cons] at hk
    push_neg at hk
    rw [eraseKey, if_neg (fun h => hk.1 h.symm), ih hk.2]

theorem take_append_take {α : Type} (n : Nat) (a b : List α) :
    (a ++ b.take n).take n = (a ++ b).take n := by
  rw [List.take_append_eq_append_take, List.take_append_eq_append_take, List.take_take,
    Nat.min_eq_left (Nat.sub_le n a.length)]

theorem cachePut_entries_fresh {K V : Type} [DecidableEq K]
    (c : LRUCache K V) (k : K) (v : V)
    (hk : k ∉ c.entries.map Prod.fst) (hlen : c.entries.length ≤ c.capacity) :
    (cachePut c k v).entries = ((k, v) :: c.entries).take c.capacity ∧
    (cachePut c k v).capacity = c.capacity := by
  rw [cachePut]
  dsimp only
  rw [eraseKey_of_not_mem k c.entries hk]
  refine ⟨?_, rfl⟩
  by_cases hcap : c.capacity < ((k, v) :: c.entries).length
  · rw [if_pos hcap, List.dropLast_eq_take]
    congr 1
    simp only [List.length_cons] at hcap ⊢
    omega
  · rw [if_neg hcap, List.take_of_length_le (by omega)]

theorem putAll_fresh {K V : Type} [DecidableEq K] :
    ∀ (l : List (K × V)) (c : LRUCache K V),
      c.entries.length ≤ c.capacity →
      (l.map Prod.fst).Nodup →
      (∀ p ∈ l, p.1 ∉ c.entries.map Prod.fst) →
      (putAll c l).entries = (l.reverse ++ c.entries).take c.capacity ∧
      (putAll c l).capacity = c.capacity := by
  intro l
  induction l with
  | nil =>
    intro c hlen _ _
    exact ⟨(List.take_of_length_le hlen).symm, rfl⟩
  | cons p rest ih =>
    obtain ⟨k, v⟩ := p
    intro c hlen hnd hfresh
    have hk : k ∉ c.entries.map Prod.fst := hfresh (k, v) (List.mem_cons_self _ _)
    have hput := cachePut_entries_fresh c k v hk hlen
    have hnd' : (rest.map Prod.fst).Nodup := by
      simp only [List.map_cons, List.nodup_cons] at hnd
      exact hnd.2
    have hknotin : k ∉ rest.map Prod.fst := by
      simp only [List.map_cons, List.nodup_cons] at hnd
      exact hnd.1
    have hfresh' : ∀ q ∈ rest, q.1 ∉ (cachePut c k v).entries.map Prod.fst := by
      intro q hq hmem
      rw [hput.1] at hmem
      have hsub : q.1 ∈ ((k, v) :: c.entries).map Prod.fst :=
        List.map_subset Prod.fst (List.take_subset _ _) hmem
      simp only [List.map_cons, List.mem_cons] at hsub
      rcases hsub with h | h
      · exact hknotin (h ▸ List.mem_map_of_mem Prod.fst hq)
      · exact hfresh q (List.mem_cons_of_mem _ hq) h
    have hlen' : (cachePut c k v).entries.length ≤ (cachePut c k v).capacity := by
      rw [hput.1, hput.2, List.length_take]
      exact min_le_left _ _
    have := ih (cachePut c k v) hlen' hnd' hfresh'
    rw [putAll] at *
    refine ⟨?_, by rw [this.2, hput.2]⟩
    rw [this.1, hput.1, hput.2, take_append_take, List.reverse_cons, List.append_assoc,
      List.singleton_append]

/-- C7: a `get` immediately after `put(k, v)` returns `v` (for any cache of
positive capacity); after inserting `capacity + 1` distinct keys into an
initially empty cache the first-inserted (least recently accessed) key has
been evicted; and a read access counts as a touch: with capacity 2, putting
`k1` then `k2`, reading `k1`, then putting `k3` evicts `k2`, not the
read-touched `k1`. -/
theorem cache_get_after_put_and_lru_eviction {K V : Type} [DecidableEq K] :
    (∀ (c : LRUCache K V) (k : K) (v : V), 0 < c.capacity →
      (cacheGet (cachePut c k v) k).1 = some v) ∧
    (∀ (cap : Nat) (k0 : K) (v0 : V) (l : List (K × V)),
      (k0 :: l.map Prod.fst).Nodup → l.length = cap →
      findVal k0 (putAll (cachePut (emptyCache K V cap) k0 v0) l).entries = none) ∧
    (∀ (k1 k2 k3 : K) (v1 v2 v3 : V), k1 ≠ k2 → k1 ≠ k3 → k2 ≠ k3 →
      findVal k1 (cachePut ((cacheGet (cachePut (cachePut
        (emptyCache K V 2) k1 v1) k2 v2) k1).2) k3 v3).entries = some v1 ∧
      findVal k2 (cachePut ((cacheGet (cachePut (cachePut
        (emptyCache K V 2) k1 v1) k2 v2) k1).2) k3 v3).entries = none) := by
  refine ⟨?_, ?_, ?_⟩
  · intro c k v hcap
    rw [cacheGet_fst, cachePut]
    by_cases hcap2 : c.capacity < ((k, v) :: eraseKey k c.entries).length
    · rw [if_pos hcap2]
      cases herase : eraseKey k c.entries with
      | nil =>
        rw [herase] at hcap2
        simp only [List.length_cons, List.length_nil] at hcap2
        omega
      | cons q rest =>
        rw [List.dropLast_cons₂]
        show findVal k ((k, v) :: (q :: rest).dropLast) = some v
        rw [findVal, if_pos rfl]
    · rw [if_neg hcap2, findVal, if_pos rfl]
  · intro cap k0 v0 l hnd hlen
    simp only [List.nodup_cons] at hnd
    have hput := cachePut_entries_fresh (emptyCache K V cap) k0 v0 (by simp [emptyCache])
      (by simp [emptyCache])
    have hall := putAll_fresh l (cachePut (emptyCache K V cap) k0 v0)
      (by rw [hput.1, hput.2]; simp [List.length_take])
      hnd.2
      (by
        intro q hq hmem
        rw [hput.1] at hmem
        have hsub : q.1 ∈ ((k0, v0) :: (emptyCache K V cap).entries).map Prod.fst :=
          List.map_subset Prod.fst (List.take_subset _ _) hmem
        simp only [emptyCache, List.map_cons, List.map_nil, List.mem_singleton] at hsub
        exact hnd.1 (hsub ▸ List.mem_map_of_mem Prod.fst hq))
    rw [hall.1, hput.1, hput.2]
    have hemp : (emptyCache K V cap).entries = [] := rfl
    rw [hemp, findVal_eq_none_iff]
    intro hmem
    have hrl : l.reverse.length = cap := by rw [List.length_reverse, hlen]
    have hce : (emptyCache K V cap).capacity = cap := rfl
    rw [hce, take_append_take, List.take_append_eq_append_take,
      List.take_of_length_le (le_of_eq hrl), hrl, Nat.sub_self, List.take_zero,
      List.append_nil, List.map_reverse, List.mem_reverse] at hmem
    exact hnd.1 hmem
  · intro k1 k2 k3 v1 v2 v3 h12 h13 h23
    constructor
    · simp [cachePut, cacheGet, findVal, eraseKey, emptyCache,
        h12, h13, h23, Ne.symm h12, Ne.symm h13, Ne.symm h23]
    · simp [cachePut, cacheGet, findVal, eraseKey, emptyCache,
        h12, h13, h23, Ne.symm h12, Ne.symm h13, Ne.symm h23]

/-- Witness for C7 over natural-number keys and values: capacity 2 for the
get-after-put part, capacity 1 with keys 1 then 2 for the eviction part, and
keys 1, 2, 3 for the read-touch part. -/
theorem cache_get_after_put_and_lru_eviction_witness :
    (cacheGet (cachePut (emptyCache Nat Nat 2) 5 7) 5).1 = some 7 ∧
    findVal 1 (putAll (cachePut (emptyCache Nat Nat 1) 1 10) [(2, 20)]).entries = none ∧
    (findVal 1 (cachePut ((cacheGet (cachePut (cachePut
        (emptyCache Nat Nat 2) 1 11) 2 22) 1).2) 3 33).entries = some 11 ∧
      findVal 2 (cachePut ((cacheGet (cachePut (cachePut
        (emptyCache Nat Nat 2) 1 11) 2 22) 1).2) 3 33).entries = none) :=
  ⟨(cache_get_after_put_and_lru_eviction).1 (emptyCache Nat Nat 2) 5 7 (by decide),
   (cache_get_after_put_and_lru_eviction).2.1 1 1 10 [(2, 20)] (by decide) (by decide),
   (cache_get_after_put_and_lru_eviction).2.2 1 2 3 11 22 33
     (by decide) (by decide) (by decide)⟩

/-! ## Cache key derivation (spec sections 4.3 and 3, `CacheEntry`)

Modelled from the spec: the key derivation of `services/ai_service.py` is
absent from the checked-in sources.  Per the spec it is a stable,
order-sensitive hash over the exact submitted content (the ContextWindow
content plus the system instructions) such that different submissions never
collide; it is therefore modelled as an injective serialization of the
submitted window into a token stream (strings are length-prefixed, lists are
count-prefixed). -/

/-- Serialization tokens for the cache key. -/
inductive Tok
  | nat (n : Nat)
  | ch (c : Char)
  | rl (r : Role)
  | ptext
  | pimg
  | ptab
  | poth
  deriving DecidableEq, Repr

/-- Length-prefixed encoding of a string. -/
def encStr (s : String) : List Tok := Tok.nat s.length :: s.data.map Tok.ch

/-- Tagged encoding of a content part. -/
def encPart : ContentPart → List Tok
  | .text s => Tok.ptext :: encStr s
  | .image r => Tok.pimg :: encStr r
  | .tabular p => Tok.ptab :: encStr p
  | .other k => Tok.poth :: encStr k

/-- Concatenation of the block encodings of a list's elements. -/
def encBlocks {α : Type} (f : α → List Tok) : List α → List Tok
  | [] => []
  | a :: rest => f a ++ encBlocks f rest

/-- Encoding of one message: identifier, role, timestamp, then the
count-prefixed parts. -/
def encMsg (m : Message) : List Tok :=
  Tok.nat m.id :: Tok.rl m.role :: Tok.nat m.createdAt ::
    Tok.nat m.parts.length :: encBlocks encPart m.parts

/-- The cache key of a submission: the count-prefixed window followed by the
system instructions. -/
def deriveKey (window : List Message) (sys : String) : List Tok :=
  Tok.nat window.length :: (encBlocks encMsg window ++ encStr sys)

theorem encStr_blocks (a b : String) (x y : List Tok)
    (h : encStr a ++ x = encStr b ++ y) : a = b ∧ x = y := by
  rw [encStr, encStr, List.cons_append, List.cons_append] at h
  have hlen : a.length = b.length := by
    have := congrArg (fun l => List.head? l) h
    simpa using this
  have htail : a.data.map Tok.ch ++ x = b.data.map Tok.ch ++ y := by
    have := congrArg (fun l => List.tail l) h
    simpa using this
  have hdlen : (a.data.map Tok.ch).length = (b.data.map Tok.ch).length := by
    simp only [List.length_map]
    exact hlen
  obtain ⟨hmap, hxy⟩ := List.append_inj htail hdlen
  refine ⟨?_, hxy⟩
  have hinj : Function.Injective Tok.ch := by
    intro c d hcd
    injection hcd
  have hdata : a.data = b.data := List.map_injective_iff.mpr hinj hmap
  cases a
  cases b
  simp only at hdata
  rw [hdata]

theorem encPart_blocks (p q : ContentPart) (x y : List Tok)
    (h : encPart p ++ x = encPart q ++ y) : p = q ∧ x = y := by
  cases p <;> cases q <;>
    simp only [encPart, List.cons_append, List.cons.injEq, reduceCtorEq, true_and,
      false_and] at h <;>
    exact ⟨by rw [(encStr_blocks _ _ x y h).1], (encStr_blocks _ _ x y h).2⟩

theorem encBlocks_inj {α : Type} (f : α → List Tok)
    (hf : ∀ a b x y, f a ++ x = f b ++ y → a = b ∧ x = y) :
    ∀ (l1 l2 : List α) (x y : List Tok), l1.length = l2.length →
      encBlocks f l1 ++ x = encBlocks f l2 ++ y → l1 = l2 ∧ x = y := by
  intro l1
  induction l1 with
  | nil =>
    intro l2 x y hlen h
    cases l2 with
    | nil => exact ⟨rfl, h⟩
    | cons b rest => simp at hlen
  | cons a rest1 ih =>
    intro l2 x y hlen h
    cases l2 with
    | nil => simp at hlen
    | cons b rest2 =>
      rw [encBlocks, encBlocks, List.append_assoc, List.append_assoc] at h
      obtain ⟨hab, htail⟩ := hf a b _ _ h
      have hlen2 : rest1.length = rest2.length := by
        simpa using hlen
      obtain ⟨hrest, hxy⟩ := ih rest2 x y hlen2 htail
      exact ⟨by rw [hab, hrest], hxy⟩

theorem encMsg_blocks (m n : Message) (x y : List Tok)
    (h : encMsg m ++ x = encMsg n ++ y) : m = n ∧ x = y := by
  rw [encMsg, encMsg] at h
  simp only [List.cons_append, List.cons.injEq, Tok.nat.injEq, Tok.rl.injEq] at h
  obtain ⟨hid, hrole, htime, hplen, htail⟩ := h
  obtain ⟨hparts, hxy⟩ := encBlocks_inj encPart encPart_blocks m.parts n.parts x y hplen htail
  refine ⟨?_, hxy⟩
  cases m
  cases n
  simp_all

theorem deriveKey_inj (w1 w2 : List Message) (s1 s2 : String)
    (h : deriveKey w1 s1 = deriveKey w2 s2) : w1 = w2 ∧ s1 = s2 := by
  rw [deriveKey, deriveKey] at h
  simp only [List.cons.injEq, Tok.nat.injEq] at h
  obtain ⟨hlen, htail⟩ := h
  obtain ⟨hw, hs⟩ := encBlocks_inj encMsg encMsg_blocks w1 w2 _ _ hlen htail
  refine ⟨hw, ?_⟩
  have := encStr_blocks s1 s2 [] []
  simp only [List.append_nil] at this
  exact (this hs).1

/-- C8: the cache key derivation is injective on the submitted content: two
requests (window plus system instructions) get different keys whenever they
differ, and the same key whenever they are identical. -/
theorem cache_key_collision_free (w1 w2 : List Message) (s1 s2 : String) :
    ((w1, s1) ≠ (w2, s2) → deriveKey w1 s1 ≠ deriveKey w2 s2) ∧
    ((w1, s1) = (w2, s2) → deriveKey w1 s1 = deriveKey w2 s2) := by
  constructor
  · intro hne heq
    obtain ⟨hw, hs⟩ := deriveKey_inj w1 w2 s1 s2 heq
    exact hne (by rw [hw, hs])
  · intro heq
    rw [Prod.mk.injEq] at heq
    rw [heq.1, heq.2]

/-- Witness for C8: two concrete one-message submissions that differ get
different keys; the same submission twice gets the same key. -/
theorem cache_key_collision_free_witness :
    deriveKey [mkMsg 0] "sys" ≠ deriveKey [mkMsg 1] "sys" ∧
    deriveKey [mkMsg 0] "sys" = deriveKey [mkMsg 0] "sys" :=
  ⟨(cache_key_collision_free [mkMsg 0] [mkMsg 1] "sys" "sys").1 (by decide),
   (cache_key_collision_free [mkMsg 0] [mkMsg 0] "sys" "sys").2 rfl⟩

/-! ## QueryRouter (spec section 4.4)

Modelled from the spec: `_should_use_pandasai` of `services/csv_service.py`
is absent from the checked-in sources; the indicator term lists are those of
`src/README.md` lines 173-180.  Classification is over the lower-cased query:
a term is present when its word sequence occurs contiguously among the
query's whitespace-separated words, which realizes the spec's scenarios (in
particular, `how` does not fire inside the word `show`); complex terms take
precedence, and a query with no indicator terms defaults to complex. -/

/-- The two analyzer paths. -/
inductive RouteKind
  | simple
  | complex
  deriving DecidableEq, Repr

/-- The enumerated indicators of a simple query. -/
def simpleTerms : List String :=
  ["show", "preview", "display", "head", "first", "rows", "columns", "count",
   "length", "size", "shape", "info", "describe", "stats"]

/-- The enumerated indicators of a complex query. -/
def complexTerms : List String :=
  ["correlation", "relationship", "pattern", "trend", "outlier", "insight",
   "analysis", "why", "how", "what if", "predict", "group by", "aggregate",
   "compare", "difference"]

/-- ASCII lower-casing of one character. -/
def lowerChar (c : Char) : Char :=
  if 65 ≤ c.toNat ∧ c.toNat ≤ 90 then Char.ofNat (c.toNat + 32) else c

/-- Split a character list on spaces, dropping empty chunks; `cur` is the
current word accumulated in reverse. -/
def splitWordsAux : List Char → List Char → List (List Char)
  | [], cur => if cur = [] then [] else [cur.reverse]
  | c :: rest, cur =>
    if c = ' ' then
      if cur = [] then splitWordsAux rest [] else cur.reverse :: splitWordsAux rest []
    else splitWordsAux rest (c :: cur)

/-- The lower-cased words of a query. -/
def wordsOf (s : String) : List (List Char) := splitWordsAux (s.data.map lowerChar) []

/-- Whether the word sequence `t` occurs contiguously in `w`. -/
def occursIn (t : List (List Char)) : List (List Char) → Bool
  | [] => t.isEmpty
  | w :: rest => t.isPrefixOf (w :: rest) || occursIn t rest

/-- Classification over the normalized word sequence: any complex term
present wins, else any simple term present gives `simple`, else `complex`. -/
def routeWords (w : List (List Char)) : RouteKind :=
  if complexTerms.any (fun t => occursIn (wordsOf t) w) then RouteKind.complex
  else if simpleTerms.any (fun t => occursIn (wordsOf t) w) then RouteKind.simple
  else RouteKind.complex

/-- `route(query)`: keyword classification of the lower-cased query text. -/
def route (q : String) : RouteKind := routeWords (wordsOf q)

/-- The query of scenario C, with its apostrophe built explicitly. -/
def scenarioCQuery : String :=
  "what" ++ String.singleton (Char.ofNat 39) ++ "s the correlation between age and salary?"

/-- C9: `route` classifies by indicator terms over the lower-cased query:
any complex term present (or no simple term present) gives `complex`, a
simple term with no complex term gives `simple`, so complex terms take
precedence; scenario C's two queries classify as `simple` and `complex`
respectively; and the classification is a pure function of the normalized
query, so repeated runs agree. -/
theorem route_keyword_classification :
    (∀ q : String,
      complexTerms.any (fun t => occursIn (wordsOf t) (wordsOf q)) = true →
      route q = RouteKind.complex) ∧
    (∀ q : String,
      simpleTerms.any (fun t => occursIn (wordsOf t) (wordsOf q)) = false →
      route q = RouteKind.complex) ∧
    (∀ q : String,
      simpleTerms.any (fun t => occursIn (wordsOf t) (wordsOf q)) = true →
      complexTerms.any (fun t => occursIn (wordsOf t) (wordsOf q)) = false →
      route q = RouteKind.simple) ∧
    route "show me the first 5 rows" = RouteKind.simple ∧
    route scenarioCQuery = RouteKind.complex ∧
    (∀ q1 q2 : String, wordsOf q1 = wordsOf q2 → route q1 = route q2) := by
  refine ⟨?_, ?_, ?_, by decide, by decide, ?_⟩
  · intro q h
    rw [route, routeWords, if_pos h]
  · intro q h
    rw [route, routeWords]
    by_cases hc : complexTerms.any (fun t => occursIn (wordsOf t) (wordsOf q)) = true
    · rw [if_pos hc]
    · rw [if_neg hc, if_neg (by rw [h]; exact Bool.false_ne_true)]
  · intro q hs hc
    rw [route, routeWords, if_neg (by rw [hc]; exact Bool.false_ne_true), if_pos hs]
  · intro q1 q2 h
    rw [route, route, h]

/-- Witness for C9: the three classification rules applied at concrete
queries, and determinism across a case change. -/
theorem route_keyword_classification_witness :
    route scenarioCQuery = RouteKind.complex ∧
    route "hello there" = RouteKind.complex ∧
    route "show me the first 5 rows" = RouteKind.simple ∧
    route "Show Me" = route "show me" :=
  ⟨route_keyword_classification.1 scenarioCQuery (by decide),
   route_keyword_classification.2.1 "hello there" (by decide),
   route_keyword_classification.2.2.1 "show me the first 5 rows" (by decide) (by decide),
   route_keyword_classification.2.2.2.2.2 "Show Me" "show me" (by decide)⟩

/-! ## Dataset sampling before AI-driven analysis (spec section 4.4)

Modelled from the spec: `_sample_dataframe_if_large` of
`services/csv_service.py` is absent from the checked-in sources
(`src/README.md` lines 155-162 and `src/MD/PANDASAI_INTEGRATION.md` lines
166-169 document sampling of datasets above 10,000 rows with a fixed seed for
reproducibility).  The pseudo-random fixed-seed selection is modelled as a
deterministic seeded rotation followed by truncation to the threshold; the
result records in its metadata whether sampling occurred. -/

/-- The size threshold above which a dataset is sampled (`_max_dataframe_size`). -/
def maxDataframeSize : Nat := 10000

/-- The fixed sampling seed. -/
def sampleSeed : Nat := 42

/-- One step of a linear congruential generator. -/
def lcg (s : Nat) : Nat := (1103515245 * s + 12345) % 4294967296

/-- A dataset together with the sampling metadata recorded for the result. -/
structure SampledData (α : Type) where
  rows : List α
  sampled : Bool
  originalSize : Nat
  deriving DecidableEq, Repr

/-- The fixed-seed pseudo-random sample of `maxDataframeSize` rows. -/
def sampleRows {α : Type} (seed : Nat) (rows : List α) : List α :=
  (rows.drop (lcg seed % rows.length) ++ rows.take (lcg seed % rows.length)).take
    maxDataframeSize

/-- `_sample_dataframe_if_large`: substitute a fixed-seed sample of threshold
size when the dataset exceeds the threshold, and record whether sampling
occurred. -/
def sampleIfLarge {α : Type} (rows : List α) : SampledData α :=
  if maxDataframeSize < rows.length then
    ⟨sampleRows sampleSeed rows, true, rows.length⟩
  else
    ⟨rows, false, rows.length⟩

/-- C10: a dataset exceeding the threshold is replaced by a fixed-seed sample
of exactly the threshold size, drawn from the dataset's own rows, and the
result metadata records that sampling occurred; below the threshold the data
is passed through unsampled; and sampling is reproducible: the same dataset
and seed always produce identical sampled rows. -/
theorem sampling_bounded_and_reproducible {α : Type} :
    (∀ rows : List α, maxDataframeSize < rows.length →
      (sampleIfLarge rows).rows.length = maxDataframeSize ∧
      (sampleIfLarge rows).sampled = true ∧
      ∀ r ∈ (sampleIfLarge rows).rows, r ∈ rows) ∧
    (∀ rows : List α, rows.length ≤ maxDataframeSize →
      (sampleIfLarge rows).rows = rows ∧ (sampleIfLarge rows).sampled = false) ∧
    (∀ (rows1 rows2 : List α) (s1 s2 : Nat), rows1 = rows2 → s1 = s2 →
      sampleRows s1 rows1 = sampleRows s2 rows2) := by
  refine ⟨?_, ?_, ?_⟩
  · intro rows hbig
    rw [sampleIfLarge, if_pos hbig]
    refine ⟨?_, rfl, ?_⟩
    · rw [sampleRows, List.length_take, List.length_append, List.length_drop,
        List.length_take]
      have hmod : lcg sampleSeed % rows.length < rows.length :=
        Nat.mod_lt _ (by omega)
      omega
    · intro r hr
      have hr2 := List.take_subset _ _ hr
      rcases List.mem_append.mp hr2 with h | h
      · exact List.drop_subset _ _ h
      · exact List.take_subset _ _ h
  · intro rows hsmall
    rw [sampleIfLarge, if_neg (by omega)]
    exact ⟨rfl, rfl⟩
  · intro rows1 rows2 s1 s2 h1 h2
    rw [h1, h2]

/-- Witness for C10: a 10001-row dataset is sampled down to exactly 10000
rows with the sampling flag set; a 3-row dataset passes through; and the
sampler is reproducible on the 3-row dataset. -/
theorem sampling_bounded_and_reproducible_witness :
    ((sampleIfLarge (List.range 10001)).rows.length = maxDataframeSize ∧
      (sampleIfLarge (List.range 10001)).sampled = true ∧
      ∀ r ∈ (sampleIfLarge (List.range 10001)).rows, r ∈ List.range 10001) ∧
    ((sampleIfLarge [1, 2, 3]).rows = [1, 2, 3] ∧
      (sampleIfLarge [1, 2, 3]).sampled = false) ∧
    sampleRows sampleSeed [1, 2, 3] = sampleRows sampleSeed [1, 2, 3] :=
  ⟨(sampling_bounded_and_reproducible).1 (List.range 10001)
      (by rw [List.length_range]; decide),
   (sampling_bounded_and_reproducible).2.1 [1, 2, 3] (by decide),
   (sampling_bounded_and_reproducible).2.2 [1, 2, 3] [1, 2, 3] sampleSeed sampleSeed
      rfl rfl⟩

end IIAgent
